import Mathlib

/-!
Shallow embedding of `shell_tools`' `frames.py` (with the CLI driver
`top_level_functions.py`): a tool that reports the runs and gaps of frame
numbers present in a frame directory.  Pure data and functions are translated
directly from the Python source.  The `fileseq` collaborator (directory
scanning and `FrameSet` range arithmetic) is external to the repository and is
modelled at its interface boundary, following the specification's description
of the decomposition (spec section 4.1) and of the collaborator (section 6).
-/

/- ANSI escape constants from `frames.py`'s `BlenderColors` (octal `'\033[..m'`). -/
namespace BlenderColors

def HEADER : String := "\x1b[95m"

def OKBLUE : String := "\x1b[94m"

def OKGREEN : String := "\x1b[92m"

def WARNING : String := "\x1b[93m"

def FAIL : String := "\x1b[91m"

def ENDC : String := "\x1b[0m"

def BOLD : String := "\x1b[1m"

def UNDERLINE : String := "\x1b[4m"

end BlenderColors

/-- `KNOWN_IMAGE_ESSENCE_CONTAINER_EXTENSIONS` from `frames.py`. -/
def KNOWN_IMAGE_ESSENCE_CONTAINER_EXTENSIONS : List String :=
  [".mov", ".mxf", ".ari", ".dpx", ".exr", ".tif", ".tiff", ".png", ".cin", ".heif"]

/-- `has_container_extension(seq)`: is the sequence's extension in the table? -/
def has_container_extension (ext : String) : Bool :=
  KNOWN_IMAGE_ESSENCE_CONTAINER_EXTENSIONS.contains ext

/-- The `SequenceVariant` flag enum from `frames.py`. -/
inductive SequenceVariant where
  | RUN
  | GAP
deriving DecidableEq, Repr

/-- The `Content` class hierarchy of `frames.py` as a closed sum.
`sequenced` embeds `SequencedFrames`: its `FileSequence`'s `FrameSet` is a
single contiguous range `lo..hi` (it is built by `copy_seq` from one
comma-separated chunk of a frange), plus the `RUN`/`GAP` variant.
`unsequenced` embeds `UnsequencedFrame`, whose `FileSequence` has no frames;
`fsLen` stands for `len(str(self.seq.frameSet()))`, the only use it makes of
that value.  `debris` embeds `Debris`.  `basename`/`extension` are the
`FileSequence` accessors of the same names. -/
inductive Content where
  | sequenced (basename extension : String) (lo hi : ℕ) (variant : SequenceVariant)
  | unsequenced (basename extension : String) (fsLen : ℕ)
  | debris (basename extension : String)
deriving DecidableEq, Repr

/-- `self.seq.basename()`. -/
def Content.basename : Content → String
  | .sequenced b _ _ _ _ => b
  | .unsequenced b _ _ => b
  | .debris b _ => b

/-- `self.seq.extension()`. -/
def Content.extension : Content → String
  | .sequenced _ e _ _ _ => e
  | .unsequenced _ e _ => e
  | .debris _ e => e

/-- `self.is_container`: `SequencedFrames` and `UnsequencedFrame` pass
`has_container_extension(seq)` to `Content.__init__`; `Debris.__init__` calls
`Content.__init__` without it, so a `Debris` keeps the default `False`. -/
def Content.is_container : Content → Bool
  | .sequenced _ e _ _ _ => has_container_extension e
  | .unsequenced _ e _ => has_container_extension e
  | .debris _ _ => false

/-- `is_sequence_variant`, with the literal bodies from the source:
`SequencedFrames` returns `True if variant == SequenceVariant.RUN else False`
(ignoring `self.variant`), `UnsequencedFrame` returns
`True if variant == SequenceVariant.GAP else False`, `Debris` returns `False`. -/
def Content.is_sequence_variant : Content → SequenceVariant → Bool
  | .sequenced _ _ _ _ _, v => v == .RUN
  | .unsequenced _ _ _, v => v == .GAP
  | .debris _ _, _ => false

/-- `SequencedFrames.start_frame`, i.e. `self.seq.start()` (also the sort key
used by `unwrapped_sequences`; only sequenced items are ever sorted). -/
def Content.start_frame : Content → ℕ
  | .sequenced _ _ lo _ _ => lo
  | _ => 0

/-- The end of a sequenced item's range, `self.seq.frameSet().end()`. -/
def Content.end_frame : Content → ℕ
  | .sequenced _ _ _ hi _ => hi
  | _ => 0

/-- The variant carried by a `SequencedFrames`, if any. -/
def Content.sequence_variant : Content → Option SequenceVariant
  | .sequenced _ _ _ _ v => some v
  | _ => none

/-- `bounds_and_count_widths`: `SequencedFrames` reports the decimal widths of
`start`, `end` and `1+end-start`; `UnsequencedFrame` reports
`len(str(self.seq.frameSet()))` three times; `Debris` reports `(0, 0, 0)`. -/
def Content.bounds_and_count_widths : Content → ℕ × ℕ × ℕ
  | .sequenced _ _ lo hi _ =>
    ((toString lo).length, (toString hi).length, (toString (1 + hi - lo)).length)
  | .unsequenced _ _ fsLen => (fsLen, fsLen, fsLen)
  | .debris _ _ => (0, 0, 0)

/-- `Content.nuke_format_spec`: basename, then `f"%0{frame_number_width}d"`
when the width is nonzero (nothing when it is zero), then the extension. -/
def Content.nuke_format_spec (c : Content) (frame_number_width : ℕ) : String :=
  let frame_spec : String :=
    if frame_number_width ≠ 0 then "%0" ++ toString frame_number_width ++ "d" else ""
  c.basename ++ frame_spec ++ c.extension

/-- Python `str.rjust` / format spec `{x:>{w}}`: pad on the left with spaces
up to width `w` (no-op when the string is already at least that long). -/
def pyRjust (s : String) (w : ℕ) : String :=
  String.mk (List.replicate (w - s.length) ' ') ++ s

/-- Python `str.ljust` / format spec `{x:<{w}}`. -/
def pyLjust (s : String) (w : ℕ) : String :=
  s ++ String.mk (List.replicate (w - s.length) ' ')

/-- `formatted_str` of each `Content` subclass, translated f-string piece by
f-string piece (`SequencedFrames` colors the name `OKGREEN` for a `RUN` and
`FAIL` for a `GAP`, and renders its name via `nuke_format_spec(end_width-1)`;
the other two render `nuke_format_spec(0)` after blank numeric columns). -/
def Content.formatted_str : Content → ℕ → ℕ → ℕ → String
  | .sequenced b e lo hi v, start_width, end_width, count_width =>
    pyRjust (toString lo) start_width ++ "-" ++ pyLjust (toString hi) end_width ++ "| " ++
      pyLjust (toString (1 + hi - lo)) count_width ++ " " ++
      (if v = .RUN then BlenderColors.OKGREEN else BlenderColors.FAIL) ++
      (Content.sequenced b e lo hi v).nuke_format_spec (end_width - 1) ++
      BlenderColors.ENDC
  | .unsequenced b e n, start_width, end_width, count_width =>
    String.mk (List.replicate (start_width + 1 + end_width) ' ') ++ "  " ++
      pyRjust " " count_width ++ " " ++
      BlenderColors.OKBLUE ++ (Content.unsequenced b e n).nuke_format_spec 0 ++
      BlenderColors.ENDC
  | .debris b e, start_width, end_width, count_width =>
    String.mk (List.replicate (start_width + 1 + end_width + 2 + count_width) ' ') ++ " " ++
      BlenderColors.WARNING ++ (Content.debris b e).nuke_format_spec 0 ++
      BlenderColors.ENDC

/-- `ContentFormatter.col_widths`: build the width triples, transpose them
with `zip(*widths)` and take the `max` of each column.  On an empty content
list the unpacking `start_widths, end_widths, count_widths = zip(*widths)`
raises `ValueError` (`zip()` of nothing yields no columns), embedded as
`none`.  On a non-empty list, Python's `max` folds binary `max` over the
column. -/
def ContentFormatter.col_widths (content : List Content) : Option (ℕ × ℕ × ℕ) :=
  match content.map Content.bounds_and_count_widths with
  | [] => none
  | w :: ws =>
    some (ws.foldl (fun acc t => (max acc.1 t.1, max acc.2.1 t.2.1, max acc.2.2 t.2.2)) w)

/-- `ContentFormatter.summary_lines`: each item rendered with the global
column widths (propagating `col_widths`' failure on empty content). -/
def ContentFormatter.summary_lines (content : List Content) : Option (List String) :=
  (ContentFormatter.col_widths content).map fun w =>
    content.map fun c => c.formatted_str w.1 w.2.1 w.2.2

/-- The attributes of `FramesTool` set by `argparse` in `frames_cmd_top_level`
(with the sequences, gaps and debris toggles, positional name-prefix strings,
and the mutually exclusive query-mode flags). -/
structure FramesTool where
  include_sequences : Bool
  include_gaps : Bool
  include_debris : Bool
  sequence_left_substrings : List String
  uniqueness_check : Bool
  print_frame_field_width : Bool
  print_first : Bool
  print_last : Bool
deriving Repr

/-- Python's `str.startswith`: the argument is a prefix of the receiver
(stated on the underlying character lists). -/
def py_startswith (s p : String) : Bool :=
  p.data.isPrefixOf s.data

/-- `FramesTool.keep`, translated clause by clause: a non-empty
`sequence_left_substrings` short-circuits to the basename-prefix test alone;
otherwise the three toggles each veto in turn. -/
def FramesTool.keep (t : FramesTool) (c : Content) : Bool :=
  if t.sequence_left_substrings ≠ [] then
    !(t.sequence_left_substrings.any fun s => py_startswith c.basename s)
  else if c.is_sequence_variant .RUN && !t.include_sequences then false
  else if c.is_sequence_variant .GAP && !t.include_gaps then false
  else if !c.is_container && !t.include_debris then false
  else true

/-- Modelled from the spec: the `fileseq` collaborator's `FrameSet` renders a
contiguous range `lo..hi` as the frange `"lo-hi"` (just `"lo"` when the range
is a single frame), and `frame_set.split('-')` in `FramesTool.run` splits that
rendering at the hyphen.  For an `UnsequencedFrame` or `Debris` the
`FileSequence` has no frames, `seq.frameSet()` is falsy (`None`), and calling
`split` on it raises, embedded as `none`. -/
def Content.frame_set_split : Content → Option (List String)
  | .sequenced _ _ lo hi _ =>
    some (if lo = hi then [toString lo] else [toString lo, toString hi])
  | _ => none

/-- `FramesTool.run`, after `load_from_dir` (the directory snapshot is the
`content` argument, the collaborator boundary): filter with `keep`; with
exactly one survivor, serve the query flags (out-of-range indexing of the
split frange and `split` on a frameless item raise, embedded as `none`);
otherwise fail a requested uniqueness check or emit the formatted report.
The returned pair is the Python return value and the lines printed. -/
def FramesTool.run (t : FramesTool) (content : List Content) : Option (Bool × List String) :=
  let kept := content.filter t.keep
  match kept with
  | [c] =>
    if t.print_first then
      match c.frame_set_split with
      | some parts => parts[0]?.map fun p => (true, [p])
      | none => none
    else if t.print_last then
      match c.frame_set_split with
      | some parts => parts[1]?.map fun p => (true, [p])
      | none => none
    else if t.print_frame_field_width then
      some (true, [toString c.bounds_and_count_widths.2.1])
    else
      some (true, [])
  | _ =>
    if t.uniqueness_check then some (false, [])
    else (ContentFormatter.summary_lines kept).map fun lines => (true, lines)

/-- The exit code chosen by `frames_cmd_top_level` from `run`'s return value:
the source reads `exit(0) if success else exit(0)`. -/
def frames_cmd_exit_code (success : Bool) : ℕ :=
  if success then 0 else 0

/-- Modelled from the spec (section 4.1), the `fileseq` side of the
decomposition: walk the strictly increasing frame numbers accumulating the
current maximal run `s..e`; a successor extends the run, anything else closes
it and starts a new one.  This is the run list that `FrameSet.frange` renders
as comma-separated chunks. -/
def runsGo : ℕ → ℕ → List ℕ → List (ℕ × ℕ)
  | s, e, [] => [(s, e)]
  | s, e, y :: ys => if y = e + 1 then runsGo s y ys else (s, e) :: runsGo y y ys

/-- Maximal contiguous runs of a strictly sorted list of frame numbers. -/
def runsOf : List ℕ → List (ℕ × ℕ)
  | [] => []
  | x :: xs => runsGo x x xs

/-- Modelled from the spec: `FrameSet.invertedFrameRange()` lists the ranges
strictly between consecutive runs — `(prev_end+1, next_start-1)` for each
adjacent pair of runs. -/
def gapsOf : List (ℕ × ℕ) → List (ℕ × ℕ)
  | [] => []
  | [_] => []
  | (_, e1) :: (s2, e2) :: rest => (e1 + 1, s2 - 1) :: gapsOf ((s2, e2) :: rest)

/-- `FramesTool.unwrapped_sequences(seq)`: wrap each frange chunk as a `RUN`
and each inverted-range chunk as a `GAP` (each via `copy_seq`, which keeps the
basename and extension and installs the chunk as the `FrameSet`), then
`sorted(run_seqs + gap_seqs, key=lambda x: x.seq.start())` — Python's `sorted`
is a stable merge sort on the key. -/
def FramesTool.unwrapped_sequences (b e : String) (s : Finset ℕ) : List Content :=
  let l := s.sort (· ≤ ·)
  let run_seqs := (runsOf l).map fun r => Content.sequenced b e r.1 r.2 .RUN
  let gap_seqs := (gapsOf (runsOf l)).map fun r => Content.sequenced b e r.1 r.2 .GAP
  (run_seqs ++ gap_seqs).mergeSort fun x y => decide (x.start_frame ≤ y.start_frame)

/-- The run/gap items of one decomposition laid out in their natural
interleaved order: run, the gap to the next run, next run, and so on.  Used to
describe the result of `unwrapped_sequences`' sort. -/
def interleaveRG (b e : String) : List (ℕ × ℕ) → List Content
  | [] => []
  | [r] => [Content.sequenced b e r.1 r.2 .RUN]
  | r :: r' :: rest =>
    Content.sequenced b e r.1 r.2 .RUN ::
      Content.sequenced b e (r.2 + 1) (r'.1 - 1) .GAP :: interleaveRG b e (r' :: rest)

/-- The spec's notion of an item's "name pattern" (section 3: prefix +
placeholder + extension), rendered the way `formatted_str` renders it, with
the item's own end width.  Stated from the spec's words, for comparison with
the source's `keep`, which tests the basename only. -/
def Content.name_pattern (c : Content) : String :=
  c.nuke_format_spec (c.bounds_and_count_widths.2.1 - 1)

/-! ### Helper lemmas -/

/-- Folding the componentwise-max step is folding `max` on each component. -/
theorem colStep_foldl (ws : List (ℕ × ℕ × ℕ)) (w : ℕ × ℕ × ℕ) :
    ws.foldl (fun acc t => (max acc.1 t.1, max acc.2.1 t.2.1, max acc.2.2 t.2.2)) w =
      ((ws.map fun t => t.1).foldl max w.1,
       (ws.map fun t => t.2.1).foldl max w.2.1,
       (ws.map fun t => t.2.2).foldl max w.2.2) := by
  induction ws generalizing w with
  | nil => rfl
  | cons x xs ih => simp only [List.foldl_cons, List.map_cons, ih]

/-- `col_widths` on a non-empty list is the `max`-fold of each width column. -/
theorem col_widths_cons (c : Content) (cs : List Content) :
    ContentFormatter.col_widths (c :: cs) =
      some (((c :: cs).map fun x => x.bounds_and_count_widths.1).foldl max 0,
            ((c :: cs).map fun x => x.bounds_and_count_widths.2.1).foldl max 0,
            ((c :: cs).map fun x => x.bounds_and_count_widths.2.2).foldl max 0) := by
  simp only [ContentFormatter.col_widths, List.map_cons, colStep_foldl, List.foldl_cons,
    Nat.zero_max, List.map_map]
  rfl

theorem le_foldl_max (xs : List ℕ) (a b : ℕ) (h : a ≤ b) : a ≤ xs.foldl max b := by
  induction xs generalizing b with
  | nil => exact h
  | cons x xs ih => exact ih (max b x) (le_trans h (Nat.le_max_left b x))

theorem mem_le_foldl_max (xs : List ℕ) (a b : ℕ) (h : a ∈ xs) : a ≤ xs.foldl max b := by
  induction xs generalizing b with
  | nil => cases h
  | cons x xs ih =>
    rcases List.mem_cons.mp h with h | h
    · exact le_foldl_max xs a (max b x) (h ▸ Nat.le_max_right b x)
    · exact ih (max b x) h

/-! ### Claim theorems -/

/-- C2: the claim says a Gap item answers `is_sequence_variant(GAP)` with
`True`.  The code answers `False`: `SequencedFrames.is_sequence_variant`
compares its argument with `RUN` and ignores `self.variant`, so a Gap item
claims to be a `RUN` and denies being a `GAP`.  Evaluation at the failing
input (a Gap item), together with the Run half of the claim, which holds. -/
theorem C2_is_sequence_variant_eval :
    (Content.sequenced "clip." ".exr" 4 6 .GAP).is_sequence_variant .GAP = false ∧
    (Content.sequenced "clip." ".exr" 4 6 .GAP).is_sequence_variant .RUN = true ∧
    (Content.sequenced "clip." ".exr" 1 3 .RUN).is_sequence_variant .RUN = true := by
  decide

/-- C3: the claim says that with no name-prefix strings a Gap item is kept
only if `include_gaps` is on.  Evaluating `keep` at a Gap item with
`include_gaps` off (and `include_sequences` on): the item is kept, because
`is_sequence_variant` misreports Gap items as `RUN` and never as `GAP`
(see C2), so the `include_gaps` toggle can never veto a Gap. -/
theorem C3_keep_gap_eval :
    FramesTool.keep
      { include_sequences := true, include_gaps := false, include_debris := true,
        sequence_left_substrings := [], uniqueness_check := false,
        print_frame_field_width := false, print_first := false, print_last := false }
      (Content.sequenced "clip." ".exr" 4 6 .GAP) = true := by
  decide

/-- C5: the claim says an empty surviving Content list is a valid state that
yields an empty report.  Evaluating the code at that input: `col_widths`
raises `ValueError` unpacking `zip(*[])` (embedded as `none`), so `run` with
no query mode fails on an empty surviving list instead of reporting. -/
theorem C5_empty_list_eval :
    ContentFormatter.col_widths [] = none ∧
    FramesTool.run
      { include_sequences := true, include_gaps := true, include_debris := true,
        sequence_left_substrings := [], uniqueness_check := false,
        print_frame_field_width := false, print_first := false, print_last := false }
      [] = none := by
  decide

/-- C6: with uniqueness checking and two survivors `run` does return `False`
as claimed, but `frames_cmd_top_level` reads `exit(0) if success else exit(0)`,
so the process exit code is 0, not the claimed non-zero value (the parser's
own help text promises an "immediate nonzero return").  The one-survivor
success half of the claim holds, also with exit code 0. -/
theorem C6_uniqueness_exit_code_eval :
    FramesTool.run
      { include_sequences := true, include_gaps := true, include_debris := true,
        sequence_left_substrings := [], uniqueness_check := true,
        print_frame_field_width := false, print_first := false, print_last := false }
      [Content.sequenced "a." ".exr" 1 3 .RUN, Content.sequenced "b." ".exr" 7 9 .RUN] =
        some (false, []) ∧
    frames_cmd_exit_code false = 0 ∧
    FramesTool.run
      { include_sequences := true, include_gaps := true, include_debris := true,
        sequence_left_substrings := [], uniqueness_check := true,
        print_frame_field_width := false, print_first := false, print_last := false }
      [Content.sequenced "a." ".exr" 1 3 .RUN] = some (true, []) ∧
    frames_cmd_exit_code true = 0 := by
  decide

/-- C8: the claim says that with one surviving item a last-frame query emits
the item's last frame number.  Evaluating the code at a single-frame survivor
(frange `"5"`): `frame_set.split('-')` has one element, `[1]` raises
`IndexError` (embedded as `none`), so nothing is emitted; the claimed output
`some (true, ["5"])` is not produced.  A first-frame query on the same item,
and a last-frame query on a multi-frame survivor, do emit the scalar. -/
theorem C8_single_frame_last_eval :
    FramesTool.run
      { include_sequences := true, include_gaps := true, include_debris := true,
        sequence_left_substrings := [], uniqueness_check := false,
        print_frame_field_width := false, print_first := false, print_last := true }
      [Content.sequenced "a." ".exr" 5 5 .RUN] = none ∧
    FramesTool.run
      { include_sequences := true, include_gaps := true, include_debris := true,
        sequence_left_substrings := [], uniqueness_check := false,
        print_frame_field_width := false, print_first := true, print_last := false }
      [Content.sequenced "a." ".exr" 5 5 .RUN] = some (true, ["5"]) ∧
    FramesTool.run
      { include_sequences := true, include_gaps := true, include_debris := true,
        sequence_left_substrings := [], uniqueness_check := false,
        print_frame_field_width := false, print_first := false, print_last := true }
      [Content.sequenced "a." ".exr" 3 12 .RUN] = some (true, ["12"]) := by
  decide

/-- C4 counterexample: the claim says an item is kept iff its name pattern
does not start with any supplied prefix.  With the prefix `"clip.%"` supplied,
the item whose name pattern is `"clip.%01d.exr"` starts with that prefix, so
the claim says it is dropped; the code tests only the basename `"clip."`,
which does not start with `"clip.%"`, and keeps it. -/
theorem C4_counterexample :
    FramesTool.keep
      { include_sequences := true, include_gaps := true, include_debris := true,
        sequence_left_substrings := ["clip.%"], uniqueness_check := false,
        print_frame_field_width := false, print_first := false, print_last := false }
      (Content.sequenced "clip." ".exr" 1 12 .RUN) = true ∧
    py_startswith (Content.sequenced "clip." ".exr" 1 12 .RUN).name_pattern "clip.%" = true := by
  decide

/-- C4 (amended): whenever a non-empty set of name-prefix strings is supplied,
an item is kept iff its basename (the prefix part of the name pattern, not the
full pattern) starts with none of the supplied strings; the variant/container
predicates are ignored entirely in that case. -/
theorem C4_keep_prefix_override (t : FramesTool) (c : Content)
    (h : t.sequence_left_substrings ≠ []) :
    t.keep c = true ↔
      ∀ s ∈ t.sequence_left_substrings, py_startswith c.basename s = false := by
  simp only [FramesTool.keep, if_pos h, Bool.not_eq_true', List.any_eq_false,
    Bool.not_eq_true]

/-- C4 witness: the amended equivalence applied at a concrete tool and item. -/
theorem C4_keep_prefix_override_witness :
    FramesTool.keep
      { include_sequences := false, include_gaps := false, include_debris := false,
        sequence_left_substrings := ["shot02."], uniqueness_check := false,
        print_frame_field_width := false, print_first := false, print_last := false }
      (Content.sequenced "shot01." ".exr" 1 5 .RUN) = true :=
  (C4_keep_prefix_override
    { include_sequences := false, include_gaps := false, include_debris := false,
      sequence_left_substrings := ["shot02."], uniqueness_check := false,
      print_frame_field_width := false, print_first := false, print_last := false }
    (Content.sequenced "shot01." ".exr" 1 5 .RUN) (by decide)).mpr (by decide)

/-- C7 counterexample: the claim says the numeric suffix is replaced by a
placeholder whose width equals the computed `max_end_width`.  For the single
Run `1..12`, `max_end_width` is 2, so the claim dictates the placeholder
`%02d`; the rendered line actually carries `nuke_format_spec(end_width - 1)`,
i.e. `%01d`, and differs from the claimed line. -/
theorem C7_counterexample :
    ContentFormatter.summary_lines [Content.sequenced "clip." ".exr" 1 12 .RUN] =
      some ["1-12| 12 " ++ BlenderColors.OKGREEN ++
        (Content.sequenced "clip." ".exr" 1 12 .RUN).nuke_format_spec 1 ++
        BlenderColors.ENDC] ∧
    ContentFormatter.summary_lines [Content.sequenced "clip." ".exr" 1 12 .RUN] ≠
      some ["1-12| 12 " ++ BlenderColors.OKGREEN ++
        (Content.sequenced "clip." ".exr" 1 12 .RUN).nuke_format_spec 2 ++
        BlenderColors.ENDC] := by
  decide

/-- C7 (amended): every Run or Gap item of a formatted list is rendered with
its name pattern's numeric suffix replaced by the zero-padded placeholder of
width `max_end_width - 1` (no placeholder at all when that is zero), followed
by the closing style reset. -/
theorem C7_placeholder_width (l : List Content) (sw ew cw : ℕ)
    (hw : ContentFormatter.col_widths l = some (sw, ew, cw))
    (b e : String) (lo hi : ℕ) (v : SequenceVariant)
    (hc : Content.sequenced b e lo hi v ∈ l) :
    ∃ lines, ContentFormatter.summary_lines l = some lines ∧
      ∃ p, p ++ (Content.sequenced b e lo hi v).nuke_format_spec (ew - 1) ++
        BlenderColors.ENDC ∈ lines := by
  refine ⟨l.map fun c => c.formatted_str sw ew cw, ?_, ?_⟩
  · simp [ContentFormatter.summary_lines, hw]
  · refine ⟨pyRjust (toString lo) sw ++ "-" ++ pyLjust (toString hi) ew ++ "| " ++
      pyLjust (toString (1 + hi - lo)) cw ++ " " ++
      (if v = .RUN then BlenderColors.OKGREEN else BlenderColors.FAIL), ?_⟩
    have hmem := List.mem_map_of_mem (fun c => Content.formatted_str c sw ew cw) hc
    simpa [Content.formatted_str, String.append_assoc] using hmem

/-- C7 witness: the amended statement applied to a concrete one-item list. -/
theorem C7_placeholder_width_witness :
    ∃ lines,
      ContentFormatter.summary_lines [Content.sequenced "clip." ".exr" 1 12 .RUN] =
        some lines ∧
      ∃ p, p ++ (Content.sequenced "clip." ".exr" 1 12 .RUN).nuke_format_spec (2 - 1) ++
        BlenderColors.ENDC ∈ lines :=
  C7_placeholder_width [Content.sequenced "clip." ".exr" 1 12 .RUN] 1 2 2 (by decide)
    "clip." ".exr" 1 12 .RUN (by decide)

/-- C9: for every Content list the computed column-width triple is the
element-wise maximum of the items' width triples over the entire list (an
upper bound of every item's triple, and equal to the `max`-fold of each
column), and both the triple and the multiset of rendered lines are invariant
under permutation of the input list. -/
theorem C9_col_widths_max_perm (l l' : List Content) (hp : l.Perm l') :
    (l ≠ [] →
      ContentFormatter.col_widths l =
        some ((l.map fun x => x.bounds_and_count_widths.1).foldl max 0,
              (l.map fun x => x.bounds_and_count_widths.2.1).foldl max 0,
              (l.map fun x => x.bounds_and_count_widths.2.2).foldl max 0)) ∧
    (∀ w, ContentFormatter.col_widths l = some w → ∀ c ∈ l,
      c.bounds_and_count_widths.1 ≤ w.1 ∧ c.bounds_and_count_widths.2.1 ≤ w.2.1 ∧
        c.bounds_and_count_widths.2.2 ≤ w.2.2) ∧
    ContentFormatter.col_widths l = ContentFormatter.col_widths l' ∧
    ∀ ls ls', ContentFormatter.summary_lines l = some ls →
      ContentFormatter.summary_lines l' = some ls' → ls.Perm ls' := by
  haveI : RightCommutative (fun a b : ℕ => max a b) :=
    ⟨fun b x y => by rw [Nat.max_assoc, Nat.max_comm x y, ← Nat.max_assoc]⟩
  have hfold : ∀ (f : Content → ℕ), (l.map f).foldl max 0 = (l'.map f).foldl max 0 :=
    fun f => (hp.map f).foldl_eq 0
  have hchar : ∀ (m : List Content), m ≠ [] →
      ContentFormatter.col_widths m =
        some ((m.map fun x => x.bounds_and_count_widths.1).foldl max 0,
              (m.map fun x => x.bounds_and_count_widths.2.1).foldl max 0,
              (m.map fun x => x.bounds_and_count_widths.2.2).foldl max 0) := by
    intro m hm
    cases m with
    | nil => exact absurd rfl hm
    | cons c cs => exact col_widths_cons c cs
  have heqw : ContentFormatter.col_widths l = ContentFormatter.col_widths l' := by
    cases l with
    | nil =>
      have : l' = [] := hp.nil_eq.symm
      rw [this]
    | cons c cs =>
      have hl' : l' ≠ [] := by
        intro h
        rw [h] at hp
        exact List.cons_ne_nil c cs hp.eq_nil
      rw [hchar (c :: cs) (List.cons_ne_nil c cs), hchar l' hl', hfold, hfold, hfold]
  refine ⟨fun h => hchar l h, ?_, heqw, ?_⟩
  · intro w hw c hc
    cases l with
    | nil => cases hc
    | cons a as =>
      rw [col_widths_cons] at hw
      obtain rfl := Option.some.inj hw
      exact ⟨mem_le_foldl_max _ _ _ (List.mem_map_of_mem _ hc),
             mem_le_foldl_max _ _ _ (List.mem_map_of_mem _ hc),
             mem_le_foldl_max _ _ _ (List.mem_map_of_mem _ hc)⟩
  · intro ls ls' hls hls'
    simp only [ContentFormatter.summary_lines, heqw] at hls hls'
    cases hw' : ContentFormatter.col_widths l' with
    | none => rw [hw'] at hls'; cases hls'
    | some w =>
      rw [hw'] at hls hls'
      have h1 := Option.some.inj hls
      have h2 := Option.some.inj hls'
      rw [← h1, ← h2]
      exact hp.map _

/-- C9 witness: the statement applied to a concrete two-item list and its
transposition. -/
theorem C9_col_widths_max_perm_witness :
    ContentFormatter.col_widths
        [Content.sequenced "a." ".exr" 1 100 .RUN, Content.debris "x" ".txt"] =
      ContentFormatter.col_widths
        [Content.debris "x" ".txt", Content.sequenced "a." ".exr" 1 100 .RUN] :=
  (C9_col_widths_max_perm
    [Content.sequenced "a." ".exr" 1 100 .RUN, Content.debris "x" ".txt"]
    [Content.debris "x" ".txt", Content.sequenced "a." ".exr" 1 100 .RUN]
    (List.Perm.swap (Content.debris "x" ".txt")
      (Content.sequenced "a." ".exr" 1 100 .RUN) [])).2.2.1

/-- C10: when uniqueness checking is requested and no Content item survives
filtering, `run` reports failure (returns `False`) without printing, exactly
as in the many-survivor case; it does not fall through to the full report. -/
theorem C10_uniqueness_empty_fails (t : FramesTool) (content : List Content)
    (hu : t.uniqueness_check = true) (he : content.filter t.keep = []) :
    t.run content = some (false, []) := by
  unfold FramesTool.run
  rw [he]
  simp [hu]

/-- C10 witness: a uniqueness check over a directory whose only item is
filtered out fails. -/
theorem C10_uniqueness_empty_fails_witness :
    FramesTool.run
      { include_sequences := true, include_gaps := true, include_debris := false,
        sequence_left_substrings := [], uniqueness_check := true,
        print_frame_field_width := false, print_first := false, print_last := false }
      [Content.debris "x" ".txt"] = some (false, []) :=
  C10_uniqueness_empty_fails
    { include_sequences := true, include_gaps := true, include_debris := false,
      sequence_left_substrings := [], uniqueness_check := true,
      print_frame_field_width := false, print_first := false, print_last := false }
    [Content.debris "x" ".txt"] (by decide) (by decide)

/-! ### Decomposition lemmas (toward C1) -/

/-- `runsGo` always returns a first run starting at its accumulator start. -/
theorem runsGo_head (s e : ℕ) (xs : List ℕ) : ∃ y t, runsGo s e xs = (s, y) :: t := by
  induction xs generalizing s e with
  | nil => exact ⟨e, [], rfl⟩
  | cons z zs ih =>
    have hstep : runsGo s e (z :: zs) =
        if z = e + 1 then runsGo s z zs else (s, e) :: runsGo z z zs := rfl
    by_cases h : z = e + 1
    · obtain ⟨y, t, ht⟩ := ih s z
      exact ⟨y, t, by rw [hstep, if_pos h, ht]⟩
    · exact ⟨e, runsGo z z zs, by rw [hstep, if_neg h]⟩

/-- Every run produced by `runsGo` is a well-formed range. -/
theorem runsGo_bounds (xs : List ℕ) : ∀ s e : ℕ, s ≤ e → List.Chain' (· < ·) (e :: xs) →
    ∀ r ∈ runsGo s e xs, r.1 ≤ r.2 := by
  induction xs with
  | nil =>
    intro s e hse _ r hr
    simp only [runsGo, List.mem_singleton] at hr
    subst hr
    exact hse
  | cons z zs ih =>
    intro s e hse hch r hr
    have hez : e < z := (List.chain'_cons.mp hch).1
    have hch' : List.Chain' (· < ·) (z :: zs) := (List.chain'_cons.mp hch).2
    have hstep : runsGo s e (z :: zs) =
        if z = e + 1 then runsGo s z zs else (s, e) :: runsGo z z zs := rfl
    by_cases h : z = e + 1
    · rw [hstep, if_pos h] at hr
      exact ih s z (le_trans hse (le_of_lt hez)) hch' r hr
    · rw [hstep, if_neg h] at hr
      rcases List.mem_cons.mp hr with h1 | h1
      · subst h1; exact hse
      · exact ih z z (le_refl z) hch' r h1

/-- Consecutive runs produced by `runsGo` are separated by at least one
missing integer (maximality of runs). -/
theorem runsGo_sep (xs : List ℕ) : ∀ s e : ℕ, List.Chain' (· < ·) (e :: xs) →
    List.Chain' (fun r r' => r.2 + 1 < r'.1) (runsGo s e xs) := by
  induction xs with
  | nil => intro s e _; simp [runsGo]
  | cons z zs ih =>
    intro s e hch
    have hez : e < z := (List.chain'_cons.mp hch).1
    have hch' : List.Chain' (· < ·) (z :: zs) := (List.chain'_cons.mp hch).2
    have hstep : runsGo s e (z :: zs) =
        if z = e + 1 then runsGo s z zs else (s, e) :: runsGo z z zs := rfl
    by_cases h : z = e + 1
    · rw [hstep, if_pos h]; exact ih s z hch'
    · rw [hstep, if_neg h]
      obtain ⟨y, t, ht⟩ := runsGo_head z z zs
      rw [ht]
      refine List.chain'_cons.mpr ⟨?_, ?_⟩
      · show e + 1 < z
        omega
      · rw [← ht]; exact ih z z hch'

/-- The integers covered by the runs of `runsGo s e xs` are exactly the
interval `s..e` together with the remaining input elements. -/
theorem runsGo_cover (xs : List ℕ) : ∀ s e n : ℕ, s ≤ e →
    ((∃ r ∈ runsGo s e xs, r.1 ≤ n ∧ n ≤ r.2) ↔ ((s ≤ n ∧ n ≤ e) ∨ n ∈ xs)) := by
  induction xs with
  | nil =>
    intro s e n _
    simp [runsGo]
  | cons z zs ih =>
    intro s e n hse
    have hstep : runsGo s e (z :: zs) =
        if z = e + 1 then runsGo s z zs else (s, e) :: runsGo z z zs := rfl
    by_cases h : z = e + 1
    · rw [hstep, if_pos h, ih s z n (by omega)]
      subst h
      simp only [List.mem_cons]
      constructor
      · rintro (⟨h1, h2⟩ | hmem)
        · rcases Nat.eq_or_lt_of_le h2 with h3 | h3
          · exact Or.inr (Or.inl h3)
          · exact Or.inl ⟨h1, by omega⟩
        · exact Or.inr (Or.inr hmem)
      · rintro (⟨h1, h2⟩ | h1 | h1)
        · exact Or.inl ⟨h1, by omega⟩
        · exact Or.inl ⟨by omega, by omega⟩
        · exact Or.inr h1
    · rw [hstep, if_neg h]
      simp only [List.mem_cons]
      constructor
      · rintro ⟨r, hr | hr, hc⟩
        · subst hr; exact Or.inl hc
        · rcases (ih z z n (le_refl z)).mp ⟨r, hr, hc⟩ with ⟨h1, h2⟩ | h1
          · exact Or.inr (Or.inl (by omega))
          · exact Or.inr (Or.inr h1)
      · rintro (⟨h1, h2⟩ | h1 | h1)
        · exact ⟨(s, e), Or.inl rfl, h1, h2⟩
        · obtain ⟨r, hr, hc⟩ := (ih z z n (le_refl z)).mpr (Or.inl ⟨by omega, by omega⟩)
          exact ⟨r, Or.inr hr, hc⟩
        · obtain ⟨r, hr, hc⟩ := (ih z z n (le_refl z)).mpr (Or.inr h1)
          exact ⟨r, Or.inr hr, hc⟩

/-- The last run produced by `runsGo` ends at the last input element. -/
theorem runsGo_last (xs : List ℕ) : ∀ s e : ℕ,
    ((runsGo s e xs).getLast?).map Prod.snd = (e :: xs).getLast? := by
  induction xs with
  | nil => intro s e; rfl
  | cons z zs ih =>
    intro s e
    have hstep : runsGo s e (z :: zs) =
        if z = e + 1 then runsGo s z zs else (s, e) :: runsGo z z zs := rfl
    by_cases h : z = e + 1
    · rw [hstep, if_pos h, ih s z, List.getLast?_cons_cons]
    · rw [hstep, if_neg h]
      obtain ⟨y, t, ht⟩ := runsGo_head z z zs
      rw [ht, List.getLast?_cons_cons, ← ht, ih z z, List.getLast?_cons_cons]

/-- In a `≤`-sorted list every element is at most the last one. -/
theorem sorted_le_getLast (l : List ℕ) (hl : List.Sorted (· ≤ ·) l) :
    ∀ x ∈ l, ∀ y, l.getLast? = some y → x ≤ y := by
  induction l with
  | nil => intro x hx; cases hx
  | cons a t ih =>
    intro x hx y hy
    have ha : ∀ z ∈ t, a ≤ z := List.rel_of_sorted_cons hl
    have ht : List.Sorted (· ≤ ·) t := hl.of_cons
    cases t with
    | nil =>
      obtain rfl : a = y := Option.some.inj hy
      rcases List.mem_singleton.mp hx with rfl
      exact le_refl _
    | cons b' t' =>
      rw [List.getLast?_cons_cons] at hy
      rcases List.mem_cons.mp hx with rfl | hx
      · exact le_trans (ha b' (List.mem_cons_self b' t')) (ih ht b' (List.mem_cons_self b' t') y hy)
      · exact ih ht x hx y hy

/-- The interleaving of a non-empty run list starts with its first run. -/
theorem interleaveRG_head (b e : String) (r : ℕ × ℕ) (rest : List (ℕ × ℕ)) :
    ∃ t, interleaveRG b e (r :: rest) = Content.sequenced b e r.1 r.2 .RUN :: t := by
  cases rest with
  | nil => exact ⟨[], rfl⟩
  | cons r' rest' => exact ⟨_, rfl⟩

/-- The interleaving is a permutation of the run items followed by the gap
items — the list `unwrapped_sequences` sorts. -/
theorem interleaveRG_perm (b e : String) (rs : List (ℕ × ℕ)) :
    (interleaveRG b e rs).Perm
      ((rs.map fun r => Content.sequenced b e r.1 r.2 .RUN) ++
       ((gapsOf rs).map fun g => Content.sequenced b e g.1 g.2 .GAP)) := by
  induction rs with
  | nil => simp [interleaveRG, gapsOf]
  | cons r rest ih =>
    cases rest with
    | nil => simp [interleaveRG, gapsOf]
    | cons r' rest' =>
      have hstep : interleaveRG b e (r :: r' :: rest') =
          Content.sequenced b e r.1 r.2 .RUN ::
            Content.sequenced b e (r.2 + 1) (r'.1 - 1) .GAP ::
              interleaveRG b e (r' :: rest') := rfl
      have hgap : gapsOf (r :: r' :: rest') =
          (r.2 + 1, r'.1 - 1) :: gapsOf (r' :: rest') := rfl
      rw [hstep, hgap]
      simp only [List.map_cons, List.cons_append]
      exact List.Perm.cons _ ((List.Perm.cons _ ih).trans List.perm_middle.symm)

/-- Adjacent items of the interleaving tile exactly: each item starts one
past the previous item's end. -/
theorem interleaveRG_adj (b e : String) (rs : List (ℕ × ℕ))
    (hsep : List.Chain' (fun r r' => r.2 + 1 < r'.1) rs) :
    List.Chain' (fun x y => y.start_frame = x.end_frame + 1) (interleaveRG b e rs) := by
  induction rs with
  | nil => simp [interleaveRG]
  | cons r rest ih =>
    cases rest with
    | nil => simp [interleaveRG]
    | cons r' rest' =>
      have h1 : r.2 + 1 < r'.1 := (List.chain'_cons.mp hsep).1
      have h2 := (List.chain'_cons.mp hsep).2
      have hstep : interleaveRG b e (r :: r' :: rest') =
          Content.sequenced b e r.1 r.2 .RUN ::
            Content.sequenced b e (r.2 + 1) (r'.1 - 1) .GAP ::
              interleaveRG b e (r' :: rest') := rfl
      rw [hstep]
      obtain ⟨t, ht⟩ := interleaveRG_head b e r' rest'
      rw [ht]
      refine List.chain'_cons.mpr ⟨rfl, List.chain'_cons.mpr ⟨?_, ?_⟩⟩
      · show r'.1 = (r'.1 - 1) + 1
        omega
      · rw [← ht]
        exact ih h2

/-- Every item of the interleaving of well-separated, well-formed runs is a
well-formed range. -/
theorem interleaveRG_bounds (b e : String) (rs : List (ℕ × ℕ))
    (hsep : List.Chain' (fun r r' => r.2 + 1 < r'.1) rs)
    (hb : ∀ r ∈ rs, r.1 ≤ r.2) :
    ∀ c ∈ interleaveRG b e rs, c.start_frame ≤ c.end_frame := by
  induction rs with
  | nil => intro c hc; simp [interleaveRG] at hc
  | cons r rest ih =>
    cases rest with
    | nil =>
      intro c hc
      simp only [interleaveRG, List.mem_singleton] at hc
      subst hc
      exact hb r (List.mem_singleton_self r)
    | cons r' rest' =>
      intro c hc
      have h1 : r.2 + 1 < r'.1 := (List.chain'_cons.mp hsep).1
      have hstep : interleaveRG b e (r :: r' :: rest') =
          Content.sequenced b e r.1 r.2 .RUN ::
            Content.sequenced b e (r.2 + 1) (r'.1 - 1) .GAP ::
              interleaveRG b e (r' :: rest') := rfl
      rw [hstep] at hc
      rcases List.mem_cons.mp hc with rfl | hc
      · exact hb r (List.mem_cons_self r _)
      rcases List.mem_cons.mp hc with rfl | hc
      · show r.2 + 1 ≤ r'.1 - 1
        omega
      · exact ih (List.chain'_cons.mp hsep).2
          (fun x hx => hb x (List.mem_cons_of_mem r hx)) c hc

/-- Every item of the interleaving is a Run or a Gap. -/
theorem interleaveRG_variants (b e : String) (rs : List (ℕ × ℕ)) :
    ∀ c ∈ interleaveRG b e rs,
      c.sequence_variant = some .RUN ∨ c.sequence_variant = some .GAP := by
  induction rs with
  | nil => intro c hc; simp [interleaveRG] at hc
  | cons r rest ih =>
    cases rest with
    | nil =>
      intro c hc
      simp only [interleaveRG, List.mem_singleton] at hc
      subst hc
      exact Or.inl rfl
    | cons r' rest' =>
      intro c hc
      have hstep : interleaveRG b e (r :: r' :: rest') =
          Content.sequenced b e r.1 r.2 .RUN ::
            Content.sequenced b e (r.2 + 1) (r'.1 - 1) .GAP ::
              interleaveRG b e (r' :: rest') := rfl
      rw [hstep] at hc
      rcases List.mem_cons.mp hc with rfl | hc
      · exact Or.inl rfl
      rcases List.mem_cons.mp hc with rfl | hc
      · exact Or.inr rfl
      · exact ih c hc

/-- Adjacent items of the interleaving have different variants. -/
theorem interleaveRG_alt (b e : String) (rs : List (ℕ × ℕ)) :
    List.Chain' (fun x y => x.sequence_variant ≠ y.sequence_variant)
      (interleaveRG b e rs) := by
  induction rs with
  | nil => simp [interleaveRG]
  | cons r rest ih =>
    cases rest with
    | nil => simp [interleaveRG]
    | cons r' rest' =>
      have hstep : interleaveRG b e (r :: r' :: rest') =
          Content.sequenced b e r.1 r.2 .RUN ::
            Content.sequenced b e (r.2 + 1) (r'.1 - 1) .GAP ::
              interleaveRG b e (r' :: rest') := rfl
      rw [hstep]
      obtain ⟨t, ht⟩ := interleaveRG_head b e r' rest'
      rw [ht]
      refine List.chain'_cons.mpr ⟨by simp [Content.sequence_variant], ?_⟩
      refine List.chain'_cons.mpr ⟨by simp [Content.sequence_variant], ?_⟩
      rw [← ht]
      exact ih

/-- The integers covered by the Run items of the interleaving are exactly
those covered by the runs. -/
theorem interleaveRG_run_cover (b e : String) (rs : List (ℕ × ℕ)) (n : ℕ) :
    (∃ c ∈ interleaveRG b e rs, c.sequence_variant = some .RUN ∧
        c.start_frame ≤ n ∧ n ≤ c.end_frame) ↔
      ∃ r ∈ rs, r.1 ≤ n ∧ n ≤ r.2 := by
  induction rs with
  | nil => simp [interleaveRG]
  | cons r rest ih =>
    cases rest with
    | nil => simp [interleaveRG, Content.sequence_variant, Content.start_frame,
        Content.end_frame]
    | cons r' rest' =>
      have hstep : interleaveRG b e (r :: r' :: rest') =
          Content.sequenced b e r.1 r.2 .RUN ::
            Content.sequenced b e (r.2 + 1) (r'.1 - 1) .GAP ::
              interleaveRG b e (r' :: rest') := rfl
      rw [hstep]
      constructor
      · rintro ⟨c, hc, hv, hcov⟩
        rcases List.mem_cons.mp hc with rfl | hc
        · exact ⟨r, List.mem_cons_self r _, hcov⟩
        rcases List.mem_cons.mp hc with rfl | hc
        · exact absurd hv (by simp [Content.sequence_variant])
        · obtain ⟨g, hg, hgc⟩ := ih.mp ⟨c, hc, hv, hcov⟩
          exact ⟨g, List.mem_cons_of_mem r hg, hgc⟩
      · rintro ⟨g, hg, hgc⟩
        rcases List.mem_cons.mp hg with rfl | hg
        · exact ⟨Content.sequenced b e g.1 g.2 .RUN, List.mem_cons_self _ _, rfl, hgc⟩
        · obtain ⟨c, hc, hv, hcov⟩ := ih.mpr ⟨g, hg, hgc⟩
          exact ⟨c, List.mem_cons_of_mem _ (List.mem_cons_of_mem _ hc), hv, hcov⟩

/-- The interleaving of a non-empty run list ends with its last run. -/
theorem interleaveRG_last (b e : String) (rs : List (ℕ × ℕ)) (h : rs ≠ []) :
    ∃ r, rs.getLast? = some r ∧
      (interleaveRG b e rs).getLast? =
        some (Content.sequenced b e r.1 r.2 .RUN) := by
  induction rs with
  | nil => exact absurd rfl h
  | cons r rest ih =>
    cases rest with
    | nil => exact ⟨r, rfl, rfl⟩
    | cons r' rest' =>
      obtain ⟨rl, h1, h2⟩ := ih (List.cons_ne_nil r' rest')
      have hstep : interleaveRG b e (r :: r' :: rest') =
          Content.sequenced b e r.1 r.2 .RUN ::
            Content.sequenced b e (r.2 + 1) (r'.1 - 1) .GAP ::
              interleaveRG b e (r' :: rest') := rfl
      refine ⟨rl, by rw [List.getLast?_cons_cons]; exact h1, ?_⟩
      rw [hstep, List.getLast?_cons_cons]
      obtain ⟨t, ht⟩ := interleaveRG_head b e r' rest'
      rw [ht, List.getLast?_cons_cons, ← ht]
      exact h2

/-- A tiling chain of well-formed ranges covers exactly the span from its
first start to its last end. -/
theorem chain_adj_cover (cs : List Content)
    (hadj : List.Chain' (fun x y => y.start_frame = x.end_frame + 1) cs)
    (hb : ∀ c ∈ cs, c.start_frame ≤ c.end_frame) :
    ∀ c0 cl, cs.head? = some c0 → cs.getLast? = some cl →
      ∀ n, (∃ c ∈ cs, c.start_frame ≤ n ∧ n ≤ c.end_frame) ↔
        (c0.start_frame ≤ n ∧ n ≤ cl.end_frame) := by
  induction cs with
  | nil => intro c0 cl h; cases h
  | cons a t ih =>
    intro c0 cl h0 hl n
    have hac : a = c0 := Option.some.inj h0
    subst hac
    cases t with
    | nil =>
      have hacl : a = cl := Option.some.inj hl
      subst hacl
      simp only [List.mem_singleton]
      constructor
      · rintro ⟨c, rfl, hc⟩; exact hc
      · intro hc; exact ⟨a, rfl, hc⟩
    | cons b' t' =>
      have hadj1 : b'.start_frame = a.end_frame + 1 := (List.chain'_cons.mp hadj).1
      have hadj' := (List.chain'_cons.mp hadj).2
      have hl' : (b' :: t').getLast? = some cl := by
        rwa [List.getLast?_cons_cons] at hl
      have ihh := ih hadj' (fun c hc => hb c (List.mem_cons_of_mem _ hc)) b' cl rfl hl'
      have hb0 : a.start_frame ≤ a.end_frame := hb a (List.mem_cons_self _ _)
      have hbb : b'.start_frame ≤ b'.end_frame :=
        hb b' (List.mem_cons_of_mem _ (List.mem_cons_self _ _))
      have hble : b'.start_frame ≤ cl.end_frame :=
        ((ihh b'.start_frame).mp ⟨b', List.mem_cons_self _ _, le_refl _, hbb⟩).2
      constructor
      · rintro ⟨c, hc, hc1, hc2⟩
        rcases List.mem_cons.mp hc with rfl | hc
        · exact ⟨hc1, by omega⟩
        · have hn := (ihh n).mp ⟨c, hc, hc1, hc2⟩
          exact ⟨by omega, hn.2⟩
      · rintro ⟨h1, h2⟩
        by_cases hn : n ≤ a.end_frame
        · exact ⟨a, List.mem_cons_self _ _, h1, hn⟩
        · obtain ⟨c, hc, hcc⟩ := (ihh n).mpr ⟨by omega, h2⟩
          exact ⟨c, List.mem_cons_of_mem _ hc, hcc⟩

/-- A tiling chain of well-formed ranges is strictly increasing by start. -/
theorem chain_adj_lt (cs : List Content)
    (hadj : List.Chain' (fun x y => y.start_frame = x.end_frame + 1) cs)
    (hb : ∀ c ∈ cs, c.start_frame ≤ c.end_frame) :
    List.Chain' (fun x y => x.start_frame < y.start_frame) cs := by
  induction cs with
  | nil => simp
  | cons a t ih =>
    cases t with
    | nil => simp
    | cons b' t' =>
      have h1 := (List.chain'_cons.mp hadj).1
      have h2 := hb a (List.mem_cons_self _ _)
      refine List.chain'_cons.mpr ⟨by omega, ?_⟩
      exact ih (List.chain'_cons.mp hadj).2 (fun c hc => hb c (List.mem_cons_of_mem _ hc))

/-- Sorting the run items followed by the gap items by start frame, as
`unwrapped_sequences` does, yields exactly the natural interleaving. -/
theorem mergeSort_runs_gaps (b e : String) (rs : List (ℕ × ℕ))
    (hsep : List.Chain' (fun r r' => r.2 + 1 < r'.1) rs)
    (hb : ∀ r ∈ rs, r.1 ≤ r.2) :
    ((rs.map fun r => Content.sequenced b e r.1 r.2 .RUN) ++
     ((gapsOf rs).map fun g => Content.sequenced b e g.1 g.2 .GAP)).mergeSort
        (fun x y => decide (x.start_frame ≤ y.start_frame)) =
      interleaveRG b e rs := by
  set base := (rs.map fun r => Content.sequenced b e r.1 r.2 .RUN) ++
    ((gapsOf rs).map fun g => Content.sequenced b e g.1 g.2 .GAP) with hbase
  have hperm : (base.mergeSort fun x y =>
      decide (x.start_frame ≤ y.start_frame)).Perm (interleaveRG b e rs) :=
    (List.mergeSort_perm base _).trans (interleaveRG_perm b e rs).symm
  have hint_lt : List.Chain' (fun x y => x.start_frame < y.start_frame)
      (interleaveRG b e rs) :=
    chain_adj_lt _ (interleaveRG_adj b e rs hsep) (interleaveRG_bounds b e rs hsep hb)
  haveI : IsTrans Content (fun x y => x.start_frame < y.start_frame) :=
    ⟨fun _ _ _ h h' => lt_trans h h'⟩
  have hint_pw : List.Pairwise (fun x y => x.start_frame < y.start_frame)
      (interleaveRG b e rs) := List.chain'_iff_pairwise.mp hint_lt
  have hM_le : List.Pairwise (fun x y => x.start_frame ≤ y.start_frame)
      (base.mergeSort fun x y => decide (x.start_frame ≤ y.start_frame)) := by
    have hs := @List.sorted_mergeSort Content
      (fun x y : Content => decide (x.start_frame ≤ y.start_frame))
      (fun a b' c hab hbc => by
        simp only [decide_eq_true_eq] at hab hbc ⊢
        exact le_trans hab hbc)
      (fun a b' => by
        simp only [Bool.or_eq_true, decide_eq_true_eq]
        exact Nat.le_total _ _)
      base
    exact hs.imp fun h => by simpa using h
  have hnd : ((base.mergeSort fun x y =>
      decide (x.start_frame ≤ y.start_frame)).map Content.start_frame).Nodup := by
    have h1 : ((interleaveRG b e rs).map Content.start_frame).Nodup :=
      List.pairwise_map.mpr (hint_pw.imp fun h => Nat.ne_of_lt h)
    exact ((hperm.map Content.start_frame).nodup_iff).mpr h1
  have hM_lt : List.Pairwise (fun x y => x.start_frame < y.start_frame)
      (base.mergeSort fun x y => decide (x.start_frame ≤ y.start_frame)) := by
    have hne : List.Pairwise (fun x y : Content => x.start_frame ≠ y.start_frame)
        (base.mergeSort fun x y => decide (x.start_frame ≤ y.start_frame)) :=
      List.pairwise_map.mp hnd
    exact (hM_le.and hne).imp fun h => lt_of_le_of_ne h.1 h.2
  haveI : IsAntisymm Content (fun x y => x.start_frame < y.start_frame) :=
    ⟨fun _ _ hab hba => absurd (lt_trans hab hba) (lt_irrefl _)⟩
  exact List.eq_of_perm_of_sorted hperm hM_lt hint_pw

/-- `unwrapped_sequences` returns the runs and gaps of the frame set in their
natural interleaved order. -/
theorem unwrapped_sequences_eq_interleaveRG (b e : String) (s : Finset ℕ) :
    FramesTool.unwrapped_sequences b e s =
      interleaveRG b e (runsOf (s.sort (· ≤ ·))) := by
  have hlt : List.Chain' (· < ·) (s.sort (· ≤ ·)) :=
    List.chain'_iff_pairwise.mpr (Finset.sort_sorted_lt s)
  show ((((s.sort (· ≤ ·)) |> runsOf).map fun r =>
      Content.sequenced b e r.1 r.2 .RUN) ++
    ((gapsOf (runsOf (s.sort (· ≤ ·)))).map fun g =>
      Content.sequenced b e g.1 g.2 .GAP)).mergeSort
        (fun x y => decide (x.start_frame ≤ y.start_frame)) =
      interleaveRG b e (runsOf (s.sort (· ≤ ·)))
  cases hsort : s.sort (· ≤ ·) with
  | nil => simp [runsOf, gapsOf, interleaveRG, List.mergeSort_nil]
  | cons x xs =>
    rw [hsort] at hlt
    exact mergeSort_runs_gaps b e (runsGo x x xs) (runsGo_sep xs x x hlt)
      (runsGo_bounds xs x x (le_refl x) hlt)

/-- C1: for every non-empty set of non-negative frame numbers,
`unwrapped_sequences` produces ranges whose Run items together cover exactly
the input set; whose Run and Gap items together cover exactly the inclusive
span from the set's minimum to its maximum, tiling it with no overlap and no
omission (each item starts one past the previous item's end); in which every
item is a well-formed range whose frame count (the `1+end-start` the tool
prints) equals `end-start+1`; which are ordered strictly increasing by start;
which alternate Run/Gap; and which start and end with a Run. -/
theorem C1_unwrapped_sequences_decomposition (b e : String) (s : Finset ℕ)
    (hs : s.Nonempty) :
    (∀ n : ℕ, n ∈ s ↔ ∃ c ∈ FramesTool.unwrapped_sequences b e s,
        c.sequence_variant = some .RUN ∧ c.start_frame ≤ n ∧ n ≤ c.end_frame) ∧
    (∀ n : ℕ, (s.min' hs ≤ n ∧ n ≤ s.max' hs) ↔
        ∃ c ∈ FramesTool.unwrapped_sequences b e s,
          c.start_frame ≤ n ∧ n ≤ c.end_frame) ∧
    (∀ c ∈ FramesTool.unwrapped_sequences b e s,
        c.start_frame ≤ c.end_frame ∧
          (Finset.Icc c.start_frame c.end_frame).card =
            1 + c.end_frame - c.start_frame) ∧
    List.Chain' (fun x y => y.start_frame = x.end_frame + 1)
      (FramesTool.unwrapped_sequences b e s) ∧
    List.Chain' (fun x y => x.start_frame < y.start_frame)
      (FramesTool.unwrapped_sequences b e s) ∧
    List.Chain' (fun x y => x.sequence_variant ≠ y.sequence_variant)
      (FramesTool.unwrapped_sequences b e s) ∧
    (∀ c ∈ FramesTool.unwrapped_sequences b e s,
        c.sequence_variant = some .RUN ∨ c.sequence_variant = some .GAP) ∧
    FramesTool.unwrapped_sequences b e s ≠ [] ∧
    (∀ c, (FramesTool.unwrapped_sequences b e s).head? = some c →
        c.sequence_variant = some .RUN) ∧
    (∀ c, (FramesTool.unwrapped_sequences b e s).getLast? = some c →
        c.sequence_variant = some .RUN) := by
  rw [unwrapped_sequences_eq_interleaveRG]
  have hlt : List.Chain' (· < ·) (s.sort (· ≤ ·)) :=
    List.chain'_iff_pairwise.mpr (Finset.sort_sorted_lt s)
  have hsorted : List.Sorted (· ≤ ·) (s.sort (· ≤ ·)) := Finset.sort_sorted _ _
  have hmem : ∀ n : ℕ, n ∈ s.sort (· ≤ ·) ↔ n ∈ s := fun n => Finset.mem_sort _
  cases hsort : s.sort (· ≤ ·) with
  | nil =>
    obtain ⟨a, ha⟩ := hs
    have hmm : a ∈ s.sort (· ≤ ·) := (Finset.mem_sort _).mpr ha
    rw [hsort] at hmm
    cases hmm
  | cons x xs =>
    rw [hsort] at hlt hsorted hmem
    rw [show runsOf (x :: xs) = runsGo x x xs from rfl]
    have hsep := runsGo_sep xs x x hlt
    have hbnd := runsGo_bounds xs x x (le_refl x) hlt
    have hadj := interleaveRG_adj b e (runsGo x x xs) hsep
    have hbc := interleaveRG_bounds b e (runsGo x x xs) hsep hbnd
    obtain ⟨y0, t0, hhead⟩ := runsGo_head x x xs
    obtain ⟨ti, hti⟩ : ∃ t, interleaveRG b e (runsGo x x xs) =
        Content.sequenced b e x y0 .RUN :: t := by
      obtain ⟨t, ht⟩ := interleaveRG_head b e (x, y0) t0
      exact ⟨t, by rw [hhead]; exact ht⟩
    have hrs_ne : runsGo x x xs ≠ [] := by
      rw [hhead]; exact List.cons_ne_nil _ _
    obtain ⟨rl, hrl, hlast⟩ := interleaveRG_last b e (runsGo x x xs) hrs_ne
    have hx_s : x ∈ s := (hmem x).mp (List.mem_cons_self _ _)
    have hmin : s.min' hs = x := by
      apply le_antisymm (Finset.min'_le s x hx_s)
      have h1 : s.min' hs ∈ x :: xs := (hmem _).mpr (s.min'_mem hs)
      rcases List.mem_cons.mp h1 with h2 | h2
      · exact le_of_eq h2.symm
      · exact List.rel_of_sorted_cons hsorted _ h2
    have hgl : (x :: xs).getLast? = some rl.2 := by
      rw [← runsGo_last xs x x, hrl]
      rfl
    have hrl2_mem : rl.2 ∈ x :: xs := List.mem_of_getLast?_eq_some hgl
    have hmax : s.max' hs = rl.2 := by
      apply le_antisymm
      · exact sorted_le_getLast _ hsorted _ ((hmem _).mpr (s.max'_mem hs)) _ hgl
      · exact Finset.le_max' s _ ((hmem _).mp hrl2_mem)
    refine ⟨?_, ?_, ?_, hadj, chain_adj_lt _ hadj hbc,
      interleaveRG_alt b e (runsGo x x xs),
      interleaveRG_variants b e (runsGo x x xs), ?_, ?_, ?_⟩
    · intro n
      rw [interleaveRG_run_cover b e (runsGo x x xs) n,
        runsGo_cover xs x x n (le_refl x), ← hmem n]
      constructor
      · intro h
        rcases List.mem_cons.mp h with rfl | h
        · exact Or.inl ⟨le_refl n, le_refl n⟩
        · exact Or.inr h
      · rintro (⟨h1, h2⟩ | h)
        · have hnx : n = x := le_antisymm h2 h1
          exact hnx ▸ List.mem_cons_self _ _
        · exact List.mem_cons_of_mem _ h
    · intro n
      rw [hmin, hmax]
      exact (chain_adj_cover _ hadj hbc _ _ (by rw [hti]; rfl) hlast n).symm
    · intro c hc
      refine ⟨hbc c hc, ?_⟩
      rw [Nat.card_Icc]
      omega
    · rw [hti]
      exact List.cons_ne_nil _ _
    · intro c hc
      rw [hti] at hc
      obtain rfl : Content.sequenced b e x y0 .RUN = c := Option.some.inj hc
      rfl
    · intro c hc
      rw [hlast] at hc
      obtain rfl : Content.sequenced b e rl.1 rl.2 .RUN = c := Option.some.inj hc
      rfl

/-- A strictly increasing list is exactly the `≤`-sort of the finite set of
its elements. -/
theorem sort_eq_of_chain_lt (l : List ℕ) (hl : List.Chain' (· < ·) l)
    (s : Finset ℕ) (hmem : ∀ n : ℕ, n ∈ s ↔ n ∈ l) :
    s.sort (· ≤ ·) = l := by
  haveI : IsTrans ℕ (· < ·) := ⟨fun _ _ _ h h' => lt_trans h h'⟩
  have h1 : List.Pairwise (· < ·) (s.sort (· ≤ ·)) := Finset.sort_sorted_lt s
  have h2 : List.Pairwise (· < ·) l := List.chain'_iff_pairwise.mp hl
  have hperm : (s.sort (· ≤ ·)).Perm l := by
    refine (List.perm_ext_iff_of_nodup (Finset.sort_nodup _ _)
      (h2.imp fun h => Nat.ne_of_lt h)).mpr ?_
    intro a
    rw [Finset.mem_sort]
    exact hmem a
  haveI : IsAntisymm ℕ (· < ·) :=
    ⟨fun _ _ h h' => absurd (lt_trans h h') (lt_irrefl _)⟩
  exact List.eq_of_perm_of_sorted hperm h1 h2

/-- The spec's worked example: decomposing `{1, 2, 3, 7, 8, 10}` yields
`Run(1,3), Gap(4,6), Run(7,8), Gap(9,9), Run(10,10)`. -/
theorem unwrapped_sequences_spec_example :
    FramesTool.unwrapped_sequences "a." ".exr" ({1, 2, 3, 7, 8, 10} : Finset ℕ) =
      [Content.sequenced "a." ".exr" 1 3 .RUN,
       Content.sequenced "a." ".exr" 4 6 .GAP,
       Content.sequenced "a." ".exr" 7 8 .RUN,
       Content.sequenced "a." ".exr" 9 9 .GAP,
       Content.sequenced "a." ".exr" 10 10 .RUN] := by
  rw [unwrapped_sequences_eq_interleaveRG,
    sort_eq_of_chain_lt [1, 2, 3, 7, 8, 10] (by simp [List.chain'_cons]) _
      (by intro n; simp)]
  decide

/-- C1 witness: the decomposition statement applied to the spec's example set
`{1, 2, 3, 7, 8, 10}` (whose non-emptiness discharges the hypothesis); its
output is non-empty. -/
theorem C1_unwrapped_sequences_decomposition_witness :
    FramesTool.unwrapped_sequences "a." ".exr" ({1, 2, 3, 7, 8, 10} : Finset ℕ) ≠ [] :=
  (C1_unwrapped_sequences_decomposition "a." ".exr" {1, 2, 3, 7, 8, 10}
    (by decide)).2.2.2.2.2.2.2.1
